import Mathlib

/-!
go-busylight: the packet encoder of `main.go`.

A shallow embedding of the encoding core of `main.go`:

* `ComputeChecksum` (lines 68-75),
* `EncodePacketWithChecksum` (lines 77-98),
* `EncodeStructToBytes` (lines 100-108),
* `encodeValue` (lines 110-177),
* `Clamp` (lines 179-188),

together with the data types `JmpStep`, `StepB`, `StepWrapper` and `Packet`.

Conventions.

* A Go `byte` / `uint16` / `uint32` / `uint64` is a `Nat`; every conversion or
  wrapping addition of the source is an explicit `% 2^w`.
* `encodeValue` walks its argument by reflection, so the argument is modelled
  by the type `Value`, the view `reflect.ValueOf` gives of a Go value: its
  kind and, for the kinds the encoder reads, its contents.
* A Go function returning `([]byte, error)` returns `Except Failure (List Nat)`:
  `Failure.error msg` is a returned `error`, `Failure.panic msg` a run-time
  panic. The buffer `*bytes.Buffer` is threaded through `encodeValue` as an
  explicit argument and result; on an error the partly written buffer is
  dropped, as `EncodeStructToBytes` drops it (it returns `nil`).
* `EncodePacketWithChecksum` receives `*Packet` and writes through it, so the
  model returns the caller's packet after the call next to the result.
-/

set_option maxRecDepth 100000

namespace Busylight

/-! ## The reflection view of Go values -/

/-- The kinds of `reflect.Kind`. -/
inductive Kind where
  | Invalid | Bool | Int | Int8 | Int16 | Int32 | Int64
  | Uint | Uint8 | Uint16 | Uint32 | Uint64 | Uintptr
  | Float32 | Float64 | Complex64 | Complex128
  | Array | Chan | Func | Interface | Map | Ptr | Slice | String | Struct
  | UnsafePointer
deriving DecidableEq, Repr

/-- The text `%s` prints for a kind: `func (k Kind) String() string`. -/
def kindString : Kind → String
  | .Invalid => "invalid"
  | .Bool => "bool"
  | .Int => "int"
  | .Int8 => "int8"
  | .Int16 => "int16"
  | .Int32 => "int32"
  | .Int64 => "int64"
  | .Uint => "uint"
  | .Uint8 => "uint8"
  | .Uint16 => "uint16"
  | .Uint32 => "uint32"
  | .Uint64 => "uint64"
  | .Uintptr => "uintptr"
  | .Float32 => "float32"
  | .Float64 => "float64"
  | .Complex64 => "complex64"
  | .Complex128 => "complex128"
  | .Array => "array"
  | .Chan => "chan"
  | .Func => "func"
  | .Interface => "interface"
  | .Map => "map"
  | .Ptr => "ptr"
  | .Slice => "slice"
  | .String => "string"
  | .Struct => "struct"
  | .UnsafePointer => "unsafe.Pointer"

/-- A `reflect.Value`, as far as `encodeValue` inspects it.

* `invalid` is the zero `reflect.Value`: `reflect.ValueOf(nil)`, and the
  `Elem()` of a nil pointer.
* `uint8 .. uint64`, `int8` carry the number held.
* `other k` is a value of one of the remaining kinds (bool, int, int16, string,
  float64, map, a field of interface type, ...), whose contents the encoder
  never reads.
* `stepWrapper step` is a struct of type `StepWrapper`; `step` is
  `reflect.ValueOf` of what its field `Step interface{}` holds (`invalid` when
  the interface is nil). `struct fields` is a struct of any other type.
* `byteArray bytes` is an array whose element type is `uint8`; `array elems` is
  an array of any other element type.
* `ptr elem` is a pointer, `elem` being its `Elem()`. -/
inductive Value where
  | invalid
  | uint8 (x : Nat)
  | uint16 (x : Nat)
  | uint32 (x : Nat)
  | uint64 (x : Nat)
  | int8 (x : Int)
  | other (k : Kind)
  | struct (fields : List Value)
  | stepWrapper (step : Value)
  | byteArray (bytes : List Nat)
  | array (elems : List Value)
  | slice (elems : List Value)
  | ptr (elem : Value)

/-- The kind of a value: `v.Kind()`. -/
def Value.Kind : Value → Kind
  | .invalid => .Invalid
  | .uint8 _ => .Uint8
  | .uint16 _ => .Uint16
  | .uint32 _ => .Uint32
  | .uint64 _ => .Uint64
  | .int8 _ => .Int8
  | .other k => k
  | .struct _ => .Struct
  | .stepWrapper _ => .Struct
  | .byteArray _ => .Array
  | .array _ => .Array
  | .slice _ => .Slice
  | .ptr _ => .Ptr

/-- What a Go call can end in besides its result: a returned `error` with its
message, or a run-time panic. -/
inductive Failure where
  | error (msg : String)
  | panic (msg : String)
deriving DecidableEq, Repr

/-- The method `v.Uint()` of `reflect.Value`: the number held by a value of an
unsigned integer kind, as a `uint64`; on any other kind it panics. -/
def Value.Uint : Value → Except Failure Nat
  | .uint8 x => .ok (x % 2 ^ 64)
  | .uint16 x => .ok (x % 2 ^ 64)
  | .uint32 x => .ok (x % 2 ^ 64)
  | .uint64 x => .ok (x % 2 ^ 64)
  | v => .error (.panic ("reflect: call of reflect.Value.Uint on " ++ kindString v.Kind ++ " Value"))

/-- The bytes `binary.Write(buf, binary.LittleEndian, x)` appends for an
unsigned integer `x` of `w` bytes: byte `i` is `byte(x >> (8*i))`. -/
def littleEndian (w : Nat) (x : Nat) : List Nat :=
  (List.range w).map (fun i => (x >>> (8 * i)) % 256)

/-! ## The data types of the packet -/

/-- The struct `JmpStep` (lines 21-30): eight `byte` fields. -/
structure JmpStep where
  OpAndTarget : Nat
  Repeat : Nat
  Red : Nat
  Green : Nat
  Blue : Nat
  OnTime : Nat
  OffTime : Nat
  Padding : Nat
deriving DecidableEq, Repr

/-- The struct `StepB` (lines 32-34): one `uint64` field. -/
structure StepB where
  Field1 : Nat
deriving DecidableEq, Repr

/-- The struct `StepWrapper` (lines 36-38). `Step interface{}` is held as the
reflection view of its dynamic value, `Value.invalid` for a nil interface. -/
structure StepWrapper where
  Step : Value

/-- The struct `Packet` (lines 40-43): `[7]StepWrapper` and `[8]byte`. -/
structure Packet where
  Steps : Mathlib.Vector StepWrapper 7
  Metadata : Mathlib.Vector Nat 8

/-- Every field of a `JmpStep` is a `byte`. -/
def JmpStep.InRange (s : JmpStep) : Prop :=
  s.OpAndTarget < 256 ∧ s.Repeat < 256 ∧ s.Red < 256 ∧ s.Green < 256 ∧
    s.Blue < 256 ∧ s.OnTime < 256 ∧ s.OffTime < 256 ∧ s.Padding < 256

instance (s : JmpStep) : Decidable s.InRange := by
  unfold JmpStep.InRange
  infer_instance

/-- The view `reflect.ValueOf(s)` of a `JmpStep`: a struct of eight `uint8`. -/
def JmpStep.ValueOf (s : JmpStep) : Value :=
  .struct [.uint8 s.OpAndTarget, .uint8 s.Repeat, .uint8 s.Red, .uint8 s.Green,
    .uint8 s.Blue, .uint8 s.OnTime, .uint8 s.OffTime, .uint8 s.Padding]

/-- The view `reflect.ValueOf(s)` of a `StepB`: a struct of one `uint64`. -/
def StepB.ValueOf (s : StepB) : Value :=
  .struct [.uint64 s.Field1]

/-- The view `reflect.ValueOf(w)` of a `StepWrapper`. -/
def StepWrapper.ValueOf (w : StepWrapper) : Value :=
  .stepWrapper w.Step

/-- The view `reflect.ValueOf(p)` of a `Packet`: a struct of the array of the
seven wrappers and of the byte array `Metadata`. -/
def Packet.ValueOf (p : Packet) : Value :=
  .struct [.array (p.Steps.toList.map StepWrapper.ValueOf), .byteArray p.Metadata.toList]

/-- The well-known record `KeepAlive` (lines 57-66). -/
def KeepAlive : JmpStep :=
  ⟨0x8f, 0x00, 0x00, 0x00, 0x00, 0x00, 0x00, 0x00⟩

/-! ## The encoder -/

/-- ComputeChecksum (lines 68-75): the sum of all bytes, accumulated in a
`uint16`, so that each addition wraps modulo `2^16`. -/
def ComputeChecksum (data : List Nat) : Nat :=
  data.foldl (fun checksum b => (checksum + b) % 2 ^ 16) 0

mutual
/-- The body of `encodeValue` (lines 111-177). `derefed = false` is the entry of
the function; `derefed = true` is the program point after line 114, where a
pointer has been replaced by its `Elem()`, so that a value which is still a
pointer there falls to the `default` branch of the switch. -/
def encodeValueAt (derefed : Bool) (v : Value) (buf : List Nat) : Except Failure (List Nat) :=
  match derefed, v with
  -- if v.Kind() == reflect.Ptr { v = v.Elem() }
  | false, .ptr elem => encodeValueAt true elem buf
  -- case reflect.Struct, type StepWrapper
  | _, .stepWrapper step =>
      -- stepBytes, err := EncodeStructToBytes(step)
      match encodeValueAt false step [] with
      | .error err => .error err
      | .ok stepBytes =>
          if stepBytes.length ≠ 8 then
            .error (.error ("step struct must be exactly 8 bytes, got " ++ toString stepBytes.length))
          else
            .ok (buf ++ stepBytes)
  -- case reflect.Struct, generic: every field in turn
  | _, .struct fields => encodeEach fields buf
  -- case reflect.Array, element kind uint8: the bytes are written as they are
  | _, .byteArray bytes => .ok (buf ++ bytes)
  -- case reflect.Array, other element kinds: every element in turn
  | _, .array elems => encodeEach elems buf
  -- case reflect.Slice
  | _, .slice elems => encodeEach elems buf
  -- case reflect.Uint8, reflect.Int8: buf.WriteByte(byte(v.Uint()))
  | _, .uint8 x =>
      match (Value.uint8 x).Uint with
      | .error err => .error err
      | .ok u => .ok (buf ++ [u % 256])
  | _, .int8 x =>
      match (Value.int8 x).Uint with
      | .error err => .error err
      | .ok u => .ok (buf ++ [u % 256])
  -- case reflect.Uint16: binary.Write(buf, binary.LittleEndian, uint16(v.Uint()))
  | _, .uint16 x =>
      match (Value.uint16 x).Uint with
      | .error err => .error err
      | .ok u => .ok (buf ++ littleEndian 2 (u % 2 ^ 16))
  -- case reflect.Uint32
  | _, .uint32 x =>
      match (Value.uint32 x).Uint with
      | .error err => .error err
      | .ok u => .ok (buf ++ littleEndian 4 (u % 2 ^ 32))
  -- case reflect.Uint64
  | _, .uint64 x =>
      match (Value.uint64 x).Uint with
      | .error err => .error err
      | .ok u => .ok (buf ++ littleEndian 8 (u % 2 ^ 64))
  -- default
  | _, .invalid =>
      .error (.error ("unsupported field type: " ++ kindString Value.invalid.Kind))
  | _, .other k =>
      .error (.error ("unsupported field type: " ++ kindString (Value.other k).Kind))
  | true, .ptr elem =>
      .error (.error ("unsupported field type: " ++ kindString (Value.ptr elem).Kind))
/-- The loops `for i := 0; i < n; i++ { err := encodeValue(x_i, buf); if err != nil
{ return err } }` of `encodeValue` over the fields of a struct and over the
elements of an array or slice. -/
def encodeEach (vs : List Value) (buf : List Nat) : Except Failure (List Nat) :=
  match vs with
  | [] => .ok buf
  | v :: rest =>
      match encodeValueAt false v buf with
      | .error err => .error err
      | .ok buf1 => encodeEach rest buf1
end

/-- The function `encodeValue` (lines 110-177), writing to `buf`. -/
def encodeValue (v : Value) (buf : List Nat) : Except Failure (List Nat) :=
  encodeValueAt false v buf

/-- EncodeStructToBytes (lines 100-108): `encodeValue` on a new buffer. -/
def EncodeStructToBytes (input : Value) : Except Failure (List Nat) :=
  match encodeValue input [] with
  | .error err => .error err
  | .ok buf => .ok buf

/-- EncodePacketWithChecksum (lines 77-98). The first component is the caller's
packet after the call (the function writes through its pointer argument), the
second what the call returns. The slice expression of line 90 panics when the
encoding is shorter than two bytes. -/
def EncodePacketWithChecksum (packet : Packet) : Packet × Except Failure (List Nat) :=
  -- packet.Metadata[len(packet.Metadata)-2] = 0; packet.Metadata[len(packet.Metadata)-1] = 0
  let packet : Packet :=
    { packet with Metadata := (packet.Metadata.set ⟨8 - 2, by decide⟩ 0).set ⟨8 - 1, by decide⟩ 0 }
  match EncodeStructToBytes packet.ValueOf with
  | .error err => (packet, .error err)
  | .ok encodedBytes =>
      if encodedBytes.length < 2 then
        (packet, .error (.panic "runtime error: slice bounds out of range"))
      else
        let checksum := ComputeChecksum (encodedBytes.take (encodedBytes.length - 2))
        let encodedBytes := encodedBytes.set (encodedBytes.length - 2) ((checksum >>> 8) % 256)
        let encodedBytes := encodedBytes.set (encodedBytes.length - 1) ((checksum &&& 0xFF) % 256)
        (packet, .ok encodedBytes)

/-- A step slot holds a `JmpStep` or a `StepB` value. -/
def StepWrapper.Valid (w : StepWrapper) : Prop :=
  (∃ s : JmpStep, w.Step = s.ValueOf) ∨ (∃ s : StepB, w.Step = s.ValueOf)

/-- Every slot of the packet holds a `JmpStep` or a `StepB` value. -/
def Packet.ValidSteps (p : Packet) : Prop :=
  ∀ w ∈ p.Steps.toList, w.Valid

/-- The packet `main` builds (lines 227-238) around a first step `step`. -/
def mainPacket (step : JmpStep) : Packet :=
  { Steps := ⟨[⟨step.ValueOf⟩, ⟨(StepB.mk 0).ValueOf⟩, ⟨(StepB.mk 0).ValueOf⟩,
      ⟨(StepB.mk 0).ValueOf⟩, ⟨(StepB.mk 0).ValueOf⟩, ⟨(StepB.mk 0).ValueOf⟩,
      ⟨(StepB.mk 0).ValueOf⟩], rfl⟩
    Metadata := ⟨[0, 0, 0, 255, 255, 255, 0, 0], rfl⟩ }

/-- The step `main` sets up in lines 202-210, before the colour flags. -/
def mainStep : JmpStep :=
  ⟨0x10, 0x00, 0x00, 0x64, 0x08, 0x00, 0x00, 0x00⟩

/-- The 64 bytes `main` prints for its packet when the colour flags leave the
step of lines 202-210 as it is. -/
def mainBytes : List Nat :=
  [0x10, 0, 0, 0x64, 8, 0, 0, 0] ++ List.replicate 48 0 ++ [0, 0, 0, 255, 255, 255, 0x03, 0x79]

/-- A packet with two faulty slots: slot 0 holds a `uint16`, slot 1 a `uint32`;
the other slots and `Metadata` are those of `main`. -/
def twoFaults : Packet :=
  { Steps := ⟨[⟨.uint16 7⟩, ⟨.uint32 9⟩, ⟨(StepB.mk 0).ValueOf⟩,
      ⟨(StepB.mk 0).ValueOf⟩, ⟨(StepB.mk 0).ValueOf⟩, ⟨(StepB.mk 0).ValueOf⟩,
      ⟨(StepB.mk 0).ValueOf⟩], rfl⟩
    Metadata := ⟨[0, 0, 0, 255, 255, 255, 0, 0], rfl⟩ }

/-- A packet with one faulty slot: slot 0 holds a `uint16`. -/
def oneFault : Packet :=
  { Steps := ⟨[⟨.uint16 7⟩, ⟨(StepB.mk 0).ValueOf⟩, ⟨(StepB.mk 0).ValueOf⟩,
      ⟨(StepB.mk 0).ValueOf⟩, ⟨(StepB.mk 0).ValueOf⟩, ⟨(StepB.mk 0).ValueOf⟩,
      ⟨(StepB.mk 0).ValueOf⟩], rfl⟩
    Metadata := ⟨[0, 0, 0, 255, 255, 255, 0, 0], rfl⟩ }

/-- The packet of `main` with other bytes in the last two places of `Metadata`. -/
def mainPacketDirty (step : JmpStep) : Packet :=
  { mainPacket step with Metadata := ⟨[0, 0, 0, 255, 255, 255, 17, 42], rfl⟩ }

/-- Clamp (lines 179-188): `f` clamped to `[low, high]`. A Go `int` is an
integer; the function only compares. -/
def Clamp (f low high : Int) : Int :=
  if f < low then low
  else if f > high then high
  else f

/-- The conversion `byte(x)` of an `int` (lines 219-221): `x` modulo 256. -/
def byteOfInt (x : Int) : Int :=
  x % 256

/-- The value of the unsigned integer type of `w` bytes (`uint8`, `uint16`,
`uint32`, `uint64`) that holds `v`. -/
def uintValue (w v : Nat) : Value :=
  match w with
  | 1 => .uint8 v
  | 2 => .uint16 v
  | 4 => .uint32 v
  | 8 => .uint64 v
  | _ => .invalid

/-- The number a sequence of bytes stands for, least significant byte first. -/
def fromLittleEndian : List Nat → Nat
  | [] => 0
  | b :: rest => b + 256 * fromLittleEndian rest

/-- The kinds `encodeValue` has a branch for: the pointer test of line 112 and
the cases of the switch of lines 116-172. -/
def handledKinds : List Kind :=
  [.Ptr, .Struct, .Array, .Slice, .Uint8, .Int8, .Uint16, .Uint32, .Uint64]

/-- The error of the `default` branch (line 174) for a value `v`. -/
def unsupported (v : Value) : Except Failure (List Nat) :=
  .error (.error ("unsupported field type: " ++ kindString v.Kind))

/-- The constant `hextable` of `encoding/hex`, the digits `hex.EncodeToString`
writes, as the list of its characters. -/
def hextable : List Char :=
  "0123456789abcdef".toList

/-- The function `hex.EncodeToString` of line 245: two digits for each byte,
`hextable[v >> 4]` and `hextable[v & 0x0f]`. -/
def EncodeToString (src : List Nat) : String :=
  String.mk (src.flatMap (fun v => [hextable.getD (v >>> 4) '0', hextable.getD (v &&& 0x0f) '0']))

/-- The reference string `KeepAlive` of the comment of line 18. -/
def keepAliveHex : String :=
  "8f00000000000000000000000000000000000000000000000000000000000000000000000000000000000000000000000000000000000000000000ffffff038c"

/-- The reference string `Red` of the comment of line 19. -/
def redHex : String :=
  "1000640000000000000000000000000000000000000000000000000000000000000000000000000000000000000000000000000000000000000000ffffff0371"

/-- The step of the reference string `Red`: `OpAndTarget` 0x10, `Red` 0x64. -/
def redStep : JmpStep :=
  ⟨0x10, 0x00, 0x64, 0x00, 0x00, 0x00, 0x00, 0x00⟩

/-- A packet with two unsupported slots: slot 0 holds a `string`, slot 1 a
`bool`; the other slots and `Metadata` are those of `main`. -/
def twoKinds : Packet :=
  { Steps := ⟨[⟨.other .String⟩, ⟨.other .Bool⟩, ⟨(StepB.mk 0).ValueOf⟩,
      ⟨(StepB.mk 0).ValueOf⟩, ⟨(StepB.mk 0).ValueOf⟩, ⟨(StepB.mk 0).ValueOf⟩,
      ⟨(StepB.mk 0).ValueOf⟩], rfl⟩
    Metadata := ⟨[0, 0, 0, 255, 255, 255, 0, 0], rfl⟩ }

/-- A packet whose slot 0 holds a `bool`. -/
def boolPacket : Packet :=
  { Steps := ⟨[⟨.other .Bool⟩, ⟨(StepB.mk 0).ValueOf⟩, ⟨(StepB.mk 0).ValueOf⟩,
      ⟨(StepB.mk 0).ValueOf⟩, ⟨(StepB.mk 0).ValueOf⟩, ⟨(StepB.mk 0).ValueOf⟩,
      ⟨(StepB.mk 0).ValueOf⟩], rfl⟩
    Metadata := ⟨[0, 0, 0, 255, 255, 255, 0, 0], rfl⟩ }

mutual
/-- Every array of `uint8` inside the value holds bytes. -/
def Value.BytesInRange : Value → Prop
  | .byteArray bytes => ∀ b ∈ bytes, b < 256
  | .struct fields => allBytesInRange fields
  | .array elems => allBytesInRange elems
  | .slice elems => allBytesInRange elems
  | .stepWrapper step => step.BytesInRange
  | .ptr elem => elem.BytesInRange
  | _ => True
/-- Every array of `uint8` inside the values holds bytes. -/
def allBytesInRange : List Value → Prop
  | [] => True
  | v :: rest => v.BytesInRange ∧ allBytesInRange rest
end

/-- The packet is a Go value: `Metadata` holds bytes, and so does every array of
`uint8` inside the values of the slots. -/
def Packet.InRange (p : Packet) : Prop :=
  (∀ b ∈ p.Metadata.toList, b < 256) ∧ ∀ w ∈ p.Steps.toList, w.Step.BytesInRange

/-! ## Auxiliary facts -/

/-- The wrapping accumulation started at `c` ends at the sum reduced once. -/
theorem foldl_checksum (data : List Nat) (c : Nat) :
    data.foldl (fun checksum b => (checksum + b) % 2 ^ 16) (c % 2 ^ 16) =
      (c + data.sum) % 2 ^ 16 := by
  induction data generalizing c with
  | nil => simp
  | cons b t ih =>
    simp only [List.foldl_cons, List.sum_cons]
    rw [ih (c % 2 ^ 16 + b)]
    omega

/-- The checksum is the sum of the bytes modulo `2^16`. -/
theorem ComputeChecksum_eq_sum (data : List Nat) :
    ComputeChecksum data = data.sum % 2 ^ 16 := by
  have h := foldl_checksum data 0
  simpa [ComputeChecksum] using h

/-- What the special case for `StepWrapper` does, at either program point. -/
theorem encodeValueAt_stepWrapper (d : Bool) (step : Value) (buf : List Nat) :
    encodeValueAt d (.stepWrapper step) buf =
      match EncodeStructToBytes step with
      | .error err => .error err
      | .ok stepBytes =>
          if stepBytes.length ≠ 8 then
            .error (.error ("step struct must be exactly 8 bytes, got " ++ toString stepBytes.length))
          else
            .ok (buf ++ stepBytes) := by
  cases d <;> simp only [encodeValueAt, EncodeStructToBytes, encodeValue] <;>
    cases encodeValueAt false step [] <;> rfl

/-- The slot `w` encodes to the eight bytes `bs`. -/
def SlotBytes (w : StepWrapper) (bs : List Nat) : Prop :=
  EncodeStructToBytes w.Step = .ok bs ∧ bs.length = 8

/-- A slot that encodes to eight bytes appends them to the buffer. -/
theorem encodeValueAt_slot {w : StepWrapper} {bs : List Nat} (h : SlotBytes w bs)
    (buf : List Nat) : encodeValueAt false w.ValueOf buf = .ok (buf ++ bs) := by
  rw [StepWrapper.ValueOf, encodeValueAt_stepWrapper, h.1]
  simp [h.2]

/-- Slots that all encode to eight bytes are written one after the other. -/
theorem encodeEach_slots {ws : List StepWrapper} {bss : List (List Nat)}
    (h : List.Forall₂ SlotBytes ws bss) (buf : List Nat) :
    encodeEach (ws.map StepWrapper.ValueOf) buf = .ok (buf ++ bss.flatten) := by
  induction h generalizing buf with
  | nil => simp [encodeEach]
  | cons hw _ ih =>
    simp only [List.map_cons, encodeEach, encodeValueAt_slot hw, ih, List.flatten_cons,
      List.append_assoc]

/-- When the loop over the slots succeeds, every slot encoded to eight bytes. -/
theorem encodeEach_slots_ok (ws : List StepWrapper) (buf out : List Nat)
    (h : encodeEach (ws.map StepWrapper.ValueOf) buf = .ok out) :
    ∃ bss, List.Forall₂ SlotBytes ws bss ∧ out = buf ++ bss.flatten := by
  induction ws generalizing buf with
  | nil =>
    refine ⟨[], List.Forall₂.nil, ?_⟩
    simpa [encodeEach] using h.symm
  | cons w rest ih =>
    simp only [List.map_cons, encodeEach, StepWrapper.ValueOf, encodeValueAt_stepWrapper] at h
    cases hs : EncodeStructToBytes w.Step with
    | error e => simp [hs] at h
    | ok bs =>
      simp only [hs] at h
      by_cases hl : bs.length = 8
      · simp only [hl, ne_eq, not_true_eq_false, if_false] at h
        obtain ⟨bss, hf, hout⟩ := ih _ h
        exact ⟨bs :: bss, List.Forall₂.cons ⟨hs, hl⟩ hf, by simp [hout]⟩
      · simp [hl] at h

/-- The encoding of a packet: the slots one after the other, then `Metadata`
as it is. -/
theorem EncodeStructToBytes_packet (p : Packet) :
    EncodeStructToBytes p.ValueOf =
      match encodeEach (p.Steps.toList.map StepWrapper.ValueOf) [] with
      | .error err => .error err
      | .ok body => .ok (body ++ p.Metadata.toList) := by
  simp only [EncodeStructToBytes, encodeValue, Packet.ValueOf, encodeValueAt, encodeEach]
  cases encodeEach (p.Steps.toList.map StepWrapper.ValueOf) [] <;> rfl

/-- Slots of eight bytes each fill eight bytes per slot. -/
theorem length_flatten_slots {ws : List StepWrapper} {bss : List (List Nat)}
    (h : List.Forall₂ SlotBytes ws bss) : bss.flatten.length = 8 * ws.length := by
  induction h with
  | nil => simp
  | cons hw _ ih =>
    simp only [List.flatten_cons, List.length_append, List.length_cons, hw.2, ih]
    omega

/-- Writing the two places after the first `n` of a buffer of `n + 2` bytes. -/
theorem set_two_after (n : Nat) (l : List Nat) (a b : Nat) (h : l.length = n + 2) :
    (l.set n a).set (n + 1) b = l.take n ++ [a, b] := by
  induction n generalizing l with
  | zero =>
    match l, h with
    | [x, y], _ => rfl
  | succ n ih =>
    match l, h with
    | x :: t, h =>
      have ht : t.length = n + 2 := by simpa using h
      simp [ih t ht]

/-- Writing the last two places of a buffer keeps all the places before. -/
theorem set_last_two (l : List Nat) (a b : Nat) (h : 2 ≤ l.length) :
    (l.set (l.length - 2) a).set (l.length - 1) b = l.take (l.length - 2) ++ [a, b] := by
  have h1 : l.length - 1 = (l.length - 2) + 1 := by omega
  rw [h1]
  exact set_two_after (l.length - 2) l a b (by omega)

/-- The two checksum bytes put together give the checksum back. -/
theorem checksum_bytes (c : Nat) (h : c < 2 ^ 16) :
    ((c >>> 8) % 256) * 256 + (c &&& 0xFF) % 256 = c := by
  have h1 : c &&& 0xFF = c % 2 ^ 8 := Nat.and_pow_two_sub_one_eq_mod c 8
  rw [h1, Nat.shiftRight_eq_div_pow]
  omega

/-- The caller's packet as lines 80-81 leave it: the last two bytes of
`Metadata` are zero, all else is as before. -/
def clearChecksum (p : Packet) : Packet :=
  { p with Metadata := (p.Metadata.set ⟨6, by decide⟩ 0).set ⟨7, by decide⟩ 0 }

/-- The packet after the call is the packet with its checksum bytes cleared. -/
theorem EncodePacketWithChecksum_fst (p : Packet) :
    (EncodePacketWithChecksum p).1 = clearChecksum p := by
  unfold EncodePacketWithChecksum
  simp only
  split
  · rfl
  · split <;> rfl

/-- The cleared `Metadata`: its first six bytes, then two zero bytes. -/
theorem clearChecksum_Metadata (p : Packet) :
    (clearChecksum p).Metadata.toList = p.Metadata.toList.take 6 ++ [0, 0] := by
  obtain ⟨steps, ⟨md, hmd⟩⟩ := p
  match md, hmd with
  | [_, _, _, _, _, _, _, _], _ => rfl

/-- The result of `EncodePacketWithChecksum`, in closed form: the error of the
loop over the slots, or the slots, the first six bytes of `Metadata` and the
two bytes of the checksum of all that precedes them. -/
theorem EncodePacketWithChecksum_snd (p : Packet) :
    (EncodePacketWithChecksum p).2 =
      match encodeEach (p.Steps.toList.map StepWrapper.ValueOf) [] with
      | .error err => .error err
      | .ok body =>
          .ok (body ++ p.Metadata.toList.take 6 ++
            [(ComputeChecksum (body ++ p.Metadata.toList.take 6) >>> 8) % 256,
             (ComputeChecksum (body ++ p.Metadata.toList.take 6) &&& 0xFF) % 256]) := by
  have henc := EncodeStructToBytes_packet (clearChecksum p)
  rw [clearChecksum_Metadata] at henc
  have hsteps : (clearChecksum p).Steps = p.Steps := rfl
  rw [hsteps] at henc
  unfold EncodePacketWithChecksum
  simp only
  change (match EncodeStructToBytes (clearChecksum p).ValueOf with
    | .error err => (clearChecksum p, Except.error err)
    | .ok encodedBytes => _).2 = _
  rw [henc]
  cases encodeEach (p.Steps.toList.map StepWrapper.ValueOf) [] with
  | error e => rfl
  | ok body =>
    simp only
    have hlen : (body ++ (p.Metadata.toList.take 6 ++ [0, 0])).length =
        (body ++ p.Metadata.toList.take 6).length + 2 := by
      simp only [List.length_append, List.length_cons, List.length_nil]; omega
    have hnot : ¬ (body ++ (p.Metadata.toList.take 6 ++ [0, 0])).length < 2 := by omega
    rw [if_neg hnot]
    simp only [List.length_set]
    rw [set_last_two _ _ _ (by omega), hlen]
    have htake : List.take ((body ++ p.Metadata.toList.take 6).length + 2 - 2)
        (body ++ (p.Metadata.toList.take 6 ++ [0, 0])) = body ++ p.Metadata.toList.take 6 := by
      rw [Nat.add_sub_cancel, ← List.append_assoc, List.take_left]
    rw [htake]

/-- A successful call: every slot encoded to eight bytes, and the buffer is the
slots, the first six bytes of `Metadata` and the two checksum bytes. -/
theorem EncodePacketWithChecksum_ok_form {p : Packet} {B : List Nat}
    (h : (EncodePacketWithChecksum p).2 = .ok B) :
    ∃ bss, List.Forall₂ SlotBytes p.Steps.toList bss ∧
      B = bss.flatten ++ p.Metadata.toList.take 6 ++
        [(ComputeChecksum (bss.flatten ++ p.Metadata.toList.take 6) >>> 8) % 256,
         (ComputeChecksum (bss.flatten ++ p.Metadata.toList.take 6) &&& 0xFF) % 256] := by
  rw [EncodePacketWithChecksum_snd] at h
  cases hb : encodeEach (p.Steps.toList.map StepWrapper.ValueOf) [] with
  | error e => simp [hb] at h
  | ok body =>
    obtain ⟨bss, hf, hbody⟩ := encodeEach_slots_ok _ _ _ hb
    simp only [List.nil_append] at hbody
    subst hbody
    simp only [hb, Except.ok.injEq] at h
    exact ⟨bss, hf, h.symm⟩

/-- Slots that all encode to eight bytes make the call succeed. -/
theorem EncodePacketWithChecksum_of_slots {p : Packet} {bss : List (List Nat)}
    (h : List.Forall₂ SlotBytes p.Steps.toList bss) :
    (EncodePacketWithChecksum p).2 =
      .ok (bss.flatten ++ p.Metadata.toList.take 6 ++
        [(ComputeChecksum (bss.flatten ++ p.Metadata.toList.take 6) >>> 8) % 256,
         (ComputeChecksum (bss.flatten ++ p.Metadata.toList.take 6) &&& 0xFF) % 256]) := by
  rw [EncodePacketWithChecksum_snd, encodeEach_slots h]
  simp

/-- The seven slots and the six bytes of `Metadata` before the checksum fill
62 bytes. -/
theorem length_body {p : Packet} {bss : List (List Nat)}
    (h : List.Forall₂ SlotBytes p.Steps.toList bss) :
    (bss.flatten ++ p.Metadata.toList.take 6).length = 62 := by
  rw [List.length_append, length_flatten_slots h, List.length_take,
    Mathlib.Vector.toList_length, Mathlib.Vector.toList_length]
  rfl

/-- The bytes of a `JmpStep`: its eight fields, each as a byte. -/
theorem EncodeStructToBytes_JmpStep (s : JmpStep) :
    EncodeStructToBytes s.ValueOf =
      .ok [s.OpAndTarget % 2 ^ 64 % 256, s.Repeat % 2 ^ 64 % 256, s.Red % 2 ^ 64 % 256,
        s.Green % 2 ^ 64 % 256, s.Blue % 2 ^ 64 % 256, s.OnTime % 2 ^ 64 % 256,
        s.OffTime % 2 ^ 64 % 256, s.Padding % 2 ^ 64 % 256] := by
  rfl

/-- The bytes of a `StepB`: its field, little-endian. -/
theorem EncodeStructToBytes_StepB (s : StepB) :
    EncodeStructToBytes s.ValueOf = .ok (littleEndian 8 (s.Field1 % 2 ^ 64 % 2 ^ 64)) := by
  rfl

/-- A slot holding a `JmpStep` or a `StepB` encodes to eight bytes. -/
theorem SlotBytes_of_Valid {w : StepWrapper} (h : w.Valid) : ∃ bs, SlotBytes w bs := by
  rcases h with ⟨s, hs⟩ | ⟨s, hs⟩
  · exact ⟨_, by rw [hs]; exact EncodeStructToBytes_JmpStep s, by simp⟩
  · exact ⟨_, by rw [hs]; exact EncodeStructToBytes_StepB s, by simp [littleEndian]⟩

/-- Slots that each encode to eight bytes have a list of their encodings. -/
theorem exists_slots (ws : List StepWrapper) (h : ∀ w ∈ ws, ∃ bs, SlotBytes w bs) :
    ∃ bss, List.Forall₂ SlotBytes ws bss := by
  induction ws with
  | nil => exact ⟨[], List.Forall₂.nil⟩
  | cons w rest ih =>
    obtain ⟨bs, hbs⟩ := h w (List.mem_cons_self _ _)
    obtain ⟨bss, hbss⟩ := ih (fun x hx => h x (List.mem_cons_of_mem _ hx))
    exact ⟨bs :: bss, List.Forall₂.cons hbs hbss⟩

/-- A buffer of 62 bytes followed by two more: its length, its first 62 bytes
and its last two. -/
theorem body_two (X : List Nat) (a b : Nat) (h : X.length = 62) :
    (X ++ [a, b]).length = 64 ∧ (X ++ [a, b]).take 62 = X ∧
      (X ++ [a, b]).getD 62 0 = a ∧ (X ++ [a, b]).getD 63 0 = b := by
  refine ⟨by simp [h], List.take_left' h, ?_, ?_⟩
  · rw [List.getD_eq_getElem?_getD, List.getElem?_append_right (by omega)]
    simp [h]
  · rw [List.getD_eq_getElem?_getD, List.getElem?_append_right (by omega)]
    simp [h]

/-- The packet of `main` holds a `JmpStep` and six `StepB`. -/
theorem mainPacket_ValidSteps (step : JmpStep) : (mainPacket step).ValidSteps := by
  intro w hw
  simp only [mainPacket, Mathlib.Vector.toList, List.mem_cons, List.mem_singleton,
    List.not_mem_nil, or_false] at hw
  rcases hw with rfl | rfl | rfl | rfl | rfl | rfl | rfl
  · exact Or.inl ⟨step, rfl⟩
  all_goals exact Or.inr ⟨⟨0⟩, rfl⟩

/-- A packet of valid steps has the list of the encodings of its slots. -/
theorem exists_slots_of_ValidSteps {p : Packet} (h : p.ValidSteps) :
    ∃ bss, List.Forall₂ SlotBytes p.Steps.toList bss :=
  exists_slots _ (fun w hw => SlotBytes_of_Valid (h w hw))

/-- The eight bytes at offset `8 * i` of the concatenated slots are the encoding
of slot `i`. -/
theorem slot_at {ws : List StepWrapper} {bss : List (List Nat)}
    (h : List.Forall₂ SlotBytes ws bss) (rest : List Nat) (i : Nat) (hi : i < ws.length) :
    EncodeStructToBytes (ws.get ⟨i, hi⟩).Step =
      .ok (((bss.flatten ++ rest).drop (8 * i)).take 8) := by
  induction h generalizing i with
  | nil => simp at hi
  | @cons w bs ws1 bss1 hw _ ih =>
    cases i with
    | zero =>
      simp only [List.get_eq_getElem, List.getElem_cons_zero, Nat.mul_zero, List.drop_zero,
        List.flatten_cons, List.append_assoc]
      rw [List.take_left' hw.2]
      exact hw.1
    | succ j =>
      have hj : j < ws1.length := by simpa using hi
      have h8 : 8 * (j + 1) = bs.length + 8 * j := by rw [hw.2]; omega
      simp only [List.get_eq_getElem, List.getElem_cons_succ, List.flatten_cons,
        List.append_assoc]
      rw [h8, List.drop_append]
      simpa using ih j hj

/-- The loop over the slots stops at the first slot that does not encode to
eight bytes, with the error of that slot. -/
theorem encodeEach_first_fault (ws : List StepWrapper) (buf : List Nat) (i : Nat)
    (hi : i < ws.length) (bs : List Nat)
    (hpre : ∀ j (hj : j < i), ∃ bs1, SlotBytes (ws.get ⟨j, Nat.lt_trans hj hi⟩) bs1)
    (h : EncodeStructToBytes (ws.get ⟨i, hi⟩).Step = .ok bs) (hl : bs.length ≠ 8) :
    encodeEach (ws.map StepWrapper.ValueOf) buf =
      .error (.error ("step struct must be exactly 8 bytes, got " ++ toString bs.length)) := by
  induction ws generalizing buf i with
  | nil => simp at hi
  | cons w rest ih =>
    cases i with
    | zero =>
      simp only [List.get_eq_getElem, List.getElem_cons_zero] at h
      simp only [List.map_cons, encodeEach, StepWrapper.ValueOf, encodeValueAt_stepWrapper, h]
      simp [hl]
    | succ j =>
      obtain ⟨bs0, h0⟩ := hpre 0 (Nat.succ_pos j)
      simp only [List.get_eq_getElem, List.getElem_cons_zero] at h0
      simp only [List.map_cons, encodeEach, encodeValueAt_slot h0]
      refine ih _ j (by simpa using hi) ?_ (by simpa using h)
      intro m hm
      obtain ⟨bs1, h1⟩ := hpre (m + 1) (Nat.succ_lt_succ hm)
      exact ⟨bs1, by simpa using h1⟩

/-- Each slot of a list of well-encoded slots encodes to eight bytes. -/
theorem slot_of_slots {ws : List StepWrapper} {bss : List (List Nat)}
    (h : List.Forall₂ SlotBytes ws bss) (i : Nat) (hi : i < ws.length) :
    ∃ bs, SlotBytes (ws.get ⟨i, hi⟩) bs := by
  induction h generalizing i with
  | nil => simp at hi
  | cons hw _ ih =>
    cases i with
    | zero => exact ⟨_, hw⟩
    | succ j => simpa using ih j (by simpa using hi)

/-- The result of the call depends on the slots and on the first six bytes of
`Metadata` only. -/
theorem EncodePacketWithChecksum_congr {p q : Packet} (hs : p.Steps = q.Steps)
    (hm : p.Metadata.toList.take 6 = q.Metadata.toList.take 6) :
    (EncodePacketWithChecksum p).2 = (EncodePacketWithChecksum q).2 := by
  rw [EncodePacketWithChecksum_snd, EncodePacketWithChecksum_snd, hs, hm]

/-- Clearing the checksum bytes keeps the first six bytes of `Metadata`. -/
theorem clearChecksum_take (p : Packet) :
    (clearChecksum p).Metadata.toList.take 6 = p.Metadata.toList.take 6 := by
  rw [clearChecksum_Metadata, List.take_left']
  rw [List.length_take, Mathlib.Vector.toList_length]
  rfl

/-- Packets with the same slots and the same first six bytes of `Metadata` are
the same packet once their checksum bytes are cleared. -/
theorem clearChecksum_congr {p q : Packet} (hs : p.Steps = q.Steps)
    (hm : p.Metadata.toList.take 6 = q.Metadata.toList.take 6) :
    clearChecksum p = clearChecksum q := by
  have h1 : (clearChecksum p).Metadata = (clearChecksum q).Metadata :=
    Mathlib.Vector.eq _ _ (by rw [clearChecksum_Metadata, clearChecksum_Metadata, hm])
  have h2 : (clearChecksum p).Steps = (clearChecksum q).Steps := hs
  cases hp : clearChecksum p
  cases hq : clearChecksum q
  rw [hp] at h1 h2
  rw [hq] at h1 h2
  simp only at h1 h2
  rw [h1, h2]

/-- Eight-byte arrays that agree at the indices `0..5` have the same first six
bytes. -/
theorem take_six_of_get (a b : Mathlib.Vector Nat 8)
    (h : ∀ i : Fin 8, i.val < 6 → a.get i = b.get i) :
    a.toList.take 6 = b.toList.take 6 := by
  obtain ⟨la, ha⟩ := a
  obtain ⟨lb, hb⟩ := b
  match la, ha, lb, hb with
  | [a0, a1, a2, a3, a4, a5, _, _], _, [b0, b1, b2, b3, b4, b5, _, _], _ =>
    have h0 : a0 = b0 := h 0 (by decide)
    have h1 : a1 = b1 := h 1 (by decide)
    have h2 : a2 = b2 := h 2 (by decide)
    have h3 : a3 = b3 := h 3 (by decide)
    have h4 : a4 = b4 := h 4 (by decide)
    have h5 : a5 = b5 := h 5 (by decide)
    simp [Mathlib.Vector.toList, h0, h1, h2, h3, h4, h5]

/-- Replacing one entry of a list changes the sum by the difference. -/
theorem sum_set_add (l : List Nat) (i x : Nat) (hi : i < l.length) :
    (l.set i x).sum + l.getD i 0 = l.sum + x := by
  induction l generalizing i with
  | nil => simp at hi
  | cons a t ih =>
    cases i with
    | zero => simp; omega
    | succ j =>
      have hj : j < t.length := by simpa using hi
      have := ih j hj
      simp only [List.set_cons_succ, List.sum_cons, List.getD_cons_succ]
      omega

/-- Flipping bit `k` of a byte adds or subtracts `2^k`. -/
theorem flip_bit : ∀ x, x < 256 → ∀ k, k < 8 →
    (x ^^^ (1 <<< k) = x + 2 ^ k ∨ (x ^^^ (1 <<< k)) + 2 ^ k = x) := by
  decide

/-! ## The claims -/

/-- C1: checksum correctness. Whenever `EncodePacketWithChecksum` succeeds with
buffer `B`, `B` has 64 bytes and the big-endian value `B[62] * 256 + B[63]`
is the sum of the bytes `B[0..61]` modulo 65536. -/
theorem checksum_correct (P : Packet) (B : List Nat)
    (h : (EncodePacketWithChecksum P).2 = .ok B) :
    B.length = 64 ∧ B.getD 62 0 * 256 + B.getD 63 0 = (B.take 62).sum % 65536 := by
  obtain ⟨bss, hf, hB⟩ := EncodePacketWithChecksum_ok_form h
  obtain ⟨h1, h2, h3, h4⟩ := body_two _
    ((ComputeChecksum (bss.flatten ++ P.Metadata.toList.take 6) >>> 8) % 256)
    ((ComputeChecksum (bss.flatten ++ P.Metadata.toList.take 6) &&& 0xFF) % 256)
    (length_body hf)
  rw [hB]
  refine ⟨h1, ?_⟩
  rw [h2, h3, h4, checksum_bytes _ (by rw [ComputeChecksum_eq_sum]; exact Nat.mod_lt _ (by norm_num)),
    ComputeChecksum_eq_sum]
  norm_num

/-- Witness of C1: the packet of `main`. -/
theorem checksum_correct_witness :
    (EncodePacketWithChecksum (mainPacket mainStep)).2 = .ok mainBytes ∧
      mainBytes.length = 64 ∧
      mainBytes.getD 62 0 * 256 + mainBytes.getD 63 0 = (mainBytes.take 62).sum % 65536 :=
  have h : (EncodePacketWithChecksum (mainPacket mainStep)).2 = .ok mainBytes := by rfl
  ⟨h, checksum_correct (mainPacket mainStep) mainBytes h⟩

/-- C2: a packet whose seven slots each hold a `JmpStep` or a `StepB`, with any
`Metadata`, is never rejected: `EncodePacketWithChecksum` returns a buffer, of
exactly 64 bytes. -/
theorem valid_packet_encodes (P : Packet) (h : P.ValidSteps) :
    ∃ B, (EncodePacketWithChecksum P).2 = .ok B ∧ B.length = 64 := by
  obtain ⟨bss, hf⟩ := exists_slots_of_ValidSteps h
  exact ⟨_, EncodePacketWithChecksum_of_slots hf, (body_two _ _ _ (length_body hf)).1⟩

/-- Witness of C2: the packet of `main`. -/
theorem valid_packet_encodes_witness :
    (mainPacket mainStep).ValidSteps ∧
      ∃ B, (EncodePacketWithChecksum (mainPacket mainStep)).2 = .ok B ∧ B.length = 64 :=
  ⟨mainPacket_ValidSteps mainStep,
    valid_packet_encodes (mainPacket mainStep) (mainPacket_ValidSteps mainStep)⟩

/-- C3: wire layout. For a packet `P` of valid steps the call returns a buffer
`B` in which the eight bytes at offset `8 * i` are the encoding of the value in
slot `i`, for each of the seven slots in array order, and the bytes `B[56..61]`
are `P.Metadata[0..5]`; the plain encoding `EncodeStructToBytes(P)` has 64
bytes too and agrees with `B` on the first 62 of them. -/
theorem wire_layout (P : Packet) (h : P.ValidSteps) :
    ∃ B plain, (EncodePacketWithChecksum P).2 = .ok B ∧
      EncodeStructToBytes P.ValueOf = .ok plain ∧
      (∀ i : Fin 7, EncodeStructToBytes (P.Steps.get i).Step =
        .ok ((B.drop (8 * i.val)).take 8)) ∧
      (B.drop 56).take 6 = P.Metadata.toList.take 6 ∧
      B.length = 64 ∧ plain.length = 64 ∧ B.take 62 = plain.take 62 := by
  obtain ⟨bss, hf⟩ := exists_slots_of_ValidSteps h
  have hlen : bss.flatten.length = 56 := by
    rw [length_flatten_slots hf, Mathlib.Vector.toList_length]
  have hbody := body_two _
    ((ComputeChecksum (bss.flatten ++ P.Metadata.toList.take 6) >>> 8) % 256)
    ((ComputeChecksum (bss.flatten ++ P.Metadata.toList.take 6) &&& 0xFF) % 256)
    (length_body hf)
  refine ⟨_, bss.flatten ++ P.Metadata.toList, EncodePacketWithChecksum_of_slots hf, ?_, ?_, ?_,
    hbody.1, ?_, ?_⟩
  · rw [EncodeStructToBytes_packet, encodeEach_slots hf]
    simp
  · intro i
    rw [Mathlib.Vector.get_eq_get, List.append_assoc]
    exact slot_at hf _ i.val (by rw [Mathlib.Vector.toList_length]; exact i.isLt)
  · rw [List.append_assoc, List.drop_left' hlen, List.take_left']
    rw [List.length_take, Mathlib.Vector.toList_length]
    rfl
  · rw [List.length_append, hlen, Mathlib.Vector.toList_length]
  · rw [hbody.2.1]
    have h62 : 62 = bss.flatten.length + 6 := by rw [hlen]
    rw [h62, List.take_append]

/-- Witness of C3: the packet of `main`. -/
theorem wire_layout_witness :
    (mainPacket mainStep).ValidSteps ∧
      ∃ B plain, (EncodePacketWithChecksum (mainPacket mainStep)).2 = .ok B ∧
        EncodeStructToBytes (mainPacket mainStep).ValueOf = .ok plain ∧
        (∀ i : Fin 7, EncodeStructToBytes ((mainPacket mainStep).Steps.get i).Step =
          .ok ((B.drop (8 * i.val)).take 8)) ∧
        (B.drop 56).take 6 = (mainPacket mainStep).Metadata.toList.take 6 ∧
        B.length = 64 ∧ plain.length = 64 ∧ B.take 62 = plain.take 62 :=
  ⟨mainPacket_ValidSteps mainStep,
    wire_layout (mainPacket mainStep) (mainPacket_ValidSteps mainStep)⟩

/-- C4: for every `JmpStep` (eight fields that are bytes) `EncodeStructToBytes`
succeeds and returns exactly the eight bytes `OpAndTarget, Repeat, Red, Green,
Blue, OnTime, OffTime, Padding`, in the declared order, each unchanged. -/
theorem JmpStep_bytes (s : JmpStep) (h : s.InRange) :
    EncodeStructToBytes s.ValueOf =
      .ok [s.OpAndTarget, s.Repeat, s.Red, s.Green, s.Blue, s.OnTime, s.OffTime, s.Padding] := by
  obtain ⟨h0, h1, h2, h3, h4, h5, h6, h7⟩ := h
  rw [EncodeStructToBytes_JmpStep]
  have e : ∀ x : Nat, x < 256 → x % 2 ^ 64 % 256 = x := fun x hx => by omega
  rw [e _ h0, e _ h1, e _ h2, e _ h3, e _ h4, e _ h5, e _ h6, e _ h7]

/-- Witness of C4: the step of `main`. -/
theorem JmpStep_bytes_witness :
    mainStep.InRange ∧
      EncodeStructToBytes mainStep.ValueOf = .ok [0x10, 0x00, 0x00, 0x64, 0x08, 0x00, 0x00, 0x00] :=
  ⟨by decide, JmpStep_bytes mainStep (by decide)⟩

/-- C5: for every `StepB`, `EncodeStructToBytes` succeeds and returns exactly
eight bytes, byte `i` being `(Field1 / 256^i) mod 256`, the little-endian
representation of `Field1`; the empty slot `StepB{0}` gives eight zero bytes. -/
theorem StepB_bytes (s : StepB) :
    (∃ bs, EncodeStructToBytes s.ValueOf = .ok bs ∧ bs.length = 8 ∧
      ∀ i : Fin 8, bs.getD i.val 0 = s.Field1 / 256 ^ i.val % 256) ∧
    EncodeStructToBytes (StepB.mk 0).ValueOf = .ok [0, 0, 0, 0, 0, 0, 0, 0] := by
  refine ⟨⟨_, EncodeStructToBytes_StepB s, by simp [littleEndian], ?_⟩, rfl⟩
  intro i
  fin_cases i <;>
    simp [littleEndian, List.range, List.range.loop, Nat.shiftRight_eq_div_pow] <;> omega

/-- C6, as the claim states it, fails: in the packet `twoFaults` the value in
slot 1 encodes successfully to 4 bytes, yet the error the call returns carries
the length 2 of slot 0, not 4. -/
theorem step_length_message_counterexample :
    EncodeStructToBytes (twoFaults.Steps.get 1).Step = .ok [9, 0, 0, 0] ∧
      (EncodePacketWithChecksum twoFaults).2 =
        .error (.error "step struct must be exactly 8 bytes, got 2") ∧
      (EncodePacketWithChecksum twoFaults).2 ≠
        .error (.error ("step struct must be exactly 8 bytes, got " ++ toString [9, 0, 0, 0].length)) := by
  have h : (EncodePacketWithChecksum twoFaults).2 =
      .error (.error "step struct must be exactly 8 bytes, got 2") := by rfl
  refine ⟨by rfl, h, ?_⟩
  rw [h]
  intro hc
  injection hc with hc
  injection hc with hc
  revert hc
  decide

/-- C6, amended: a step is never padded or truncated. When the value held by
slot `i` of a packet encodes successfully to the bytes `bs`, the wrapper is
accepted if and only if `bs` has 8 bytes, and then appends exactly `bs`; when
it has `n != 8` bytes the wrapper fails with the error "step struct must be
exactly 8 bytes, got n", `EncodePacketWithChecksum` returns no buffer, and
when every earlier slot encodes to 8 bytes it returns that very error. -/
theorem step_length_checked (P : Packet) (i : Fin 7) (bs buf : List Nat)
    (h : EncodeStructToBytes (P.Steps.get i).Step = .ok bs) :
    ((∃ out, encodeValue (P.Steps.get i).ValueOf buf = .ok out) ↔ bs.length = 8) ∧
    (bs.length = 8 → encodeValue (P.Steps.get i).ValueOf buf = .ok (buf ++ bs)) ∧
    (bs.length ≠ 8 →
      encodeValue (P.Steps.get i).ValueOf buf =
        .error (.error ("step struct must be exactly 8 bytes, got " ++ toString bs.length)) ∧
      (∀ B, (EncodePacketWithChecksum P).2 ≠ .ok B) ∧
      ((∀ j : Fin 7, j < i → ∃ bs1, SlotBytes (P.Steps.get j) bs1) →
        (EncodePacketWithChecksum P).2 =
          .error (.error ("step struct must be exactly 8 bytes, got " ++ toString bs.length)))) := by
  have hval : encodeValue (P.Steps.get i).ValueOf buf =
      if bs.length ≠ 8 then
        .error (.error ("step struct must be exactly 8 bytes, got " ++ toString bs.length))
      else .ok (buf ++ bs) := by
    rw [encodeValue, StepWrapper.ValueOf, encodeValueAt_stepWrapper, h]
  have hi : i.val < P.Steps.toList.length := by
    rw [Mathlib.Vector.toList_length]; exact i.isLt
  have hget : P.Steps.get i = P.Steps.toList.get ⟨i.val, hi⟩ := Mathlib.Vector.get_eq_get _ _
  refine ⟨?_, ?_, ?_⟩
  · by_cases hl : bs.length = 8
    · simp [hval, hl]
    · simp [hval, hl]
  · intro hl
    simp [hval, hl]
  · intro hl
    refine ⟨by simp [hval, hl], ?_, ?_⟩
    · intro B hB
      obtain ⟨bss, hf, _⟩ := EncodePacketWithChecksum_ok_form hB
      obtain ⟨bs1, h1, h2⟩ := slot_of_slots hf i.val hi
      rw [← hget, h] at h1
      injection h1 with h1
      exact hl (h1 ▸ h2)
    · intro hpre
      rw [EncodePacketWithChecksum_snd,
        encodeEach_first_fault P.Steps.toList [] i.val hi bs ?_ (hget ▸ h) hl]
      intro j hj
      have hj7 : j < 7 := Nat.lt_trans hj i.isLt
      obtain ⟨bs1, h1⟩ := hpre ⟨j, hj7⟩ hj
      exact ⟨bs1, by rw [Mathlib.Vector.get_eq_get] at h1; exact h1⟩

/-- Witness of C6, amended: slot 0 of `oneFault` holds a `uint16`, which encodes
to two bytes. -/
theorem step_length_checked_witness :
    EncodeStructToBytes (oneFault.Steps.get 0).Step = .ok [7, 0] ∧
      (EncodePacketWithChecksum oneFault).2 =
        .error (.error ("step struct must be exactly 8 bytes, got " ++ toString [7, 0].length)) :=
  have h : EncodeStructToBytes (oneFault.Steps.get 0).Step = .ok [7, 0] := by rfl
  ⟨h, ((step_length_checked oneFault 0 [7, 0] [] h).2.2 (by decide)).2.2
    (fun j hj => absurd hj (Nat.not_lt_zero _))⟩

/-- C7: idempotence. For a packet `P` of valid steps, the call on `P` and the
call on `P` as the first call left it return the same 64-byte buffer. -/
theorem encode_twice (P : Packet) (h : P.ValidSteps) :
    (EncodePacketWithChecksum (EncodePacketWithChecksum P).1).2 =
        (EncodePacketWithChecksum P).2 ∧
      ∃ B, (EncodePacketWithChecksum P).2 = .ok B ∧ B.length = 64 := by
  obtain ⟨bss, hf⟩ := exists_slots_of_ValidSteps h
  refine ⟨?_, _, EncodePacketWithChecksum_of_slots hf, (body_two _ _ _ (length_body hf)).1⟩
  rw [EncodePacketWithChecksum_fst]
  exact EncodePacketWithChecksum_congr rfl (clearChecksum_take P)

/-- Witness of C7: the packet of `main`, encoded a second time for the
keep-alive buffer. -/
theorem encode_twice_witness :
    (mainPacket mainStep).ValidSteps ∧
      (EncodePacketWithChecksum (EncodePacketWithChecksum (mainPacket mainStep)).1).2 =
        (EncodePacketWithChecksum (mainPacket mainStep)).2 ∧
      ∃ B, (EncodePacketWithChecksum (mainPacket mainStep)).2 = .ok B ∧ B.length = 64 :=
  ⟨mainPacket_ValidSteps mainStep,
    encode_twice (mainPacket mainStep) (mainPacket_ValidSteps mainStep)⟩

/-- C8: the output does not depend on the last two bytes of `Metadata` the
caller supplies. Two packets with the same `Steps` and the same
`Metadata[0..5]` get identical results from the call (and are left as the
same packet by it). -/
theorem checksum_bytes_ignored (P Q : Packet) (hs : P.Steps = Q.Steps)
    (hm : ∀ i : Fin 8, i.val < 6 → P.Metadata.get i = Q.Metadata.get i) :
    (EncodePacketWithChecksum P).2 = (EncodePacketWithChecksum Q).2 ∧
      (EncodePacketWithChecksum P).1 = (EncodePacketWithChecksum Q).1 := by
  have ht := take_six_of_get P.Metadata Q.Metadata hm
  refine ⟨EncodePacketWithChecksum_congr hs ht, ?_⟩
  rw [EncodePacketWithChecksum_fst, EncodePacketWithChecksum_fst]
  exact clearChecksum_congr hs ht

/-- Witness of C8: the packet of `main`, and the same packet with the bytes 17
and 42 in the last two places of `Metadata`. -/
theorem checksum_bytes_ignored_witness :
    (mainPacket mainStep).Metadata.get 6 ≠ (mainPacketDirty mainStep).Metadata.get 6 ∧
      (EncodePacketWithChecksum (mainPacket mainStep)).2 =
        (EncodePacketWithChecksum (mainPacketDirty mainStep)).2 ∧
      (EncodePacketWithChecksum (mainPacket mainStep)).1 =
        (EncodePacketWithChecksum (mainPacketDirty mainStep)).1 :=
  ⟨by decide, checksum_bytes_ignored (mainPacket mainStep) (mainPacketDirty mainStep) rfl
    (by decide)⟩

/-- C9: for every byte sequence, `ComputeChecksum`, which wraps at each
addition, is the unbounded sum of the bytes modulo 65536; on the empty sequence
it is 0. -/
theorem ComputeChecksum_sum_mod (data : List Nat) :
    ComputeChecksum data = data.sum % 65536 ∧ ComputeChecksum [] = 0 := by
  refine ⟨?_, rfl⟩
  rw [ComputeChecksum_eq_sum]
  norm_num

/-- C10: single-bit error detection. Flipping one bit of one byte of a 62-byte
sequence changes its checksum. -/
theorem single_bit_flip_detected (D : List Nat) (i k : Nat) (hlen : D.length = 62)
    (hbytes : ∀ b ∈ D, b < 256) (hi : i < 62) (hk : k < 8) :
    ComputeChecksum (D.set i (D.getD i 0 ^^^ (1 <<< k))) ≠ ComputeChecksum D := by
  have hiD : i < D.length := by omega
  have hx : D.getD i 0 < 256 := by
    rw [List.getD_eq_getElem _ _ hiD]
    exact hbytes _ (List.getElem_mem _)
  have hsum := sum_set_add D i (D.getD i 0 ^^^ (1 <<< k)) hiD
  have hpos : 0 < 2 ^ k := Nat.two_pow_pos k
  have hle : 2 ^ k ≤ 2 ^ 7 := Nat.pow_le_pow_right (by norm_num) (by omega)
  rw [ComputeChecksum_eq_sum, ComputeChecksum_eq_sum]
  rcases flip_bit _ hx k hk with hf | hf <;> omega

/-- Witness of C10: bit 3 of byte 5 of 62 zero bytes. -/
theorem single_bit_flip_detected_witness :
    ComputeChecksum ((List.replicate 62 0).set 5 ((List.replicate 62 0).getD 5 0 ^^^ (1 <<< 3))) ≠
      ComputeChecksum (List.replicate 62 0) :=
  single_bit_flip_detected (List.replicate 62 0) 5 3 (by decide) (by decide) (by decide)
    (by decide)

/-- C11: the value encoder. For a width `w` of 1, 2, 4 or 8 bytes and a number
`v < 2^(8w)` held in the unsigned integer type of that width, `encodeValue`
returns no error and appends exactly `w` bytes, byte `i` being
`(v / 256^i) mod 256`: the little-endian representation, whose value is `v`. -/
theorem value_encoder (w v : Nat) (buf : List Nat) (hw : w = 1 ∨ w = 2 ∨ w = 4 ∨ w = 8)
    (hv : v < 2 ^ (8 * w)) :
    ∃ bs, encodeValue (uintValue w v) buf = .ok (buf ++ bs) ∧ bs.length = w ∧
      (∀ i : Fin w, bs.getD i.val 0 = v / 256 ^ i.val % 256) ∧ fromLittleEndian bs = v := by
  rcases hw with rfl | rfl | rfl | rfl
  · refine ⟨[v % 2 ^ 64 % 256], rfl, rfl, ?_, ?_⟩
    · intro i
      fin_cases i
      simp
      omega
    · simp [fromLittleEndian]
      omega
  · refine ⟨littleEndian 2 (v % 2 ^ 64 % 2 ^ 16), rfl, by simp [littleEndian], ?_, ?_⟩
    · intro i
      fin_cases i <;>
        simp [littleEndian, List.range, List.range.loop, Nat.shiftRight_eq_div_pow] <;> omega
    · simp [littleEndian, List.range, List.range.loop, Nat.shiftRight_eq_div_pow,
        fromLittleEndian]
      omega
  · refine ⟨littleEndian 4 (v % 2 ^ 64 % 2 ^ 32), rfl, by simp [littleEndian], ?_, ?_⟩
    · intro i
      fin_cases i <;>
        simp [littleEndian, List.range, List.range.loop, Nat.shiftRight_eq_div_pow] <;> omega
    · simp [littleEndian, List.range, List.range.loop, Nat.shiftRight_eq_div_pow,
        fromLittleEndian]
      omega
  · refine ⟨littleEndian 8 (v % 2 ^ 64 % 2 ^ 64), rfl, by simp [littleEndian], ?_, ?_⟩
    · intro i
      fin_cases i <;>
        simp [littleEndian, List.range, List.range.loop, Nat.shiftRight_eq_div_pow] <;> omega
    · simp [littleEndian, List.range, List.range.loop, Nat.shiftRight_eq_div_pow,
        fromLittleEndian]
      omega

/-- Witness of C11: the `uint16` value 0x1234 is written as 34 12. -/
theorem value_encoder_witness :
    ∃ bs, encodeValue (uintValue 2 0x1234) [] = .ok ([] ++ bs) ∧ bs.length = 2 ∧
      (∀ i : Fin 2, bs.getD i.val 0 = 0x1234 / 256 ^ i.val % 256) ∧
      fromLittleEndian bs = 0x1234 :=
  value_encoder 2 0x1234 [] (by decide) (by decide)

/-- The packet with its checksum bytes cleared, field by field. -/
theorem clearChecksum_mk (steps : Mathlib.Vector StepWrapper 7)
    (m0 m1 m2 m3 m4 m5 m6 m7 : Nat) (h : [m0, m1, m2, m3, m4, m5, m6, m7].length = 8) :
    clearChecksum ⟨steps, ⟨[m0, m1, m2, m3, m4, m5, m6, m7], h⟩⟩ =
      ⟨steps, ⟨[m0, m1, m2, m3, m4, m5, 0, 0], rfl⟩⟩ :=
  rfl

/-- C12, as the claim states it, fails: called on the packet of `main` with the
bytes 17 and 42 in the last two places of `Metadata`, the function leaves the
caller a different packet. -/
theorem caller_packet_changed_counterexample :
    (EncodePacketWithChecksum (mainPacketDirty mainStep)).1 ≠ mainPacketDirty mainStep := by
  rw [EncodePacketWithChecksum_fst]
  intro h
  have h2 : (clearChecksum (mainPacketDirty mainStep)).Metadata.toList =
      (mainPacketDirty mainStep).Metadata.toList := by rw [h]
  revert h2
  decide

/-- C12, amended: the only state the call changes outside its own buffer is the
last two bytes of the caller's `Metadata`, which it sets to zero. The caller's
`Steps` and `Metadata[0..5]` after the call are those before it, and the
caller's packet after the call equals the packet before it exactly when
`Metadata[6]` and `Metadata[7]` were zero already. -/
theorem caller_packet_after (P : Packet) :
    ((EncodePacketWithChecksum P).1 = P ↔ P.Metadata.get 6 = 0 ∧ P.Metadata.get 7 = 0) ∧
      (EncodePacketWithChecksum P).1.Steps = P.Steps ∧
      (EncodePacketWithChecksum P).1.Metadata.toList.take 6 = P.Metadata.toList.take 6 := by
  rw [EncodePacketWithChecksum_fst]
  refine ⟨?_, rfl, clearChecksum_take P⟩
  obtain ⟨steps, ⟨md, hmd⟩⟩ := P
  match md, hmd with
  | [m0, m1, m2, m3, m4, m5, m6, m7], hmd =>
    rw [clearChecksum_mk]
    constructor
    · intro h
      have h2 := congrArg (fun p : Packet => p.Metadata.toList) h
      simp only [Mathlib.Vector.toList, List.cons.injEq, true_and, and_true] at h2
      exact ⟨h2.1.symm, h2.2.symm⟩
    · rintro ⟨h6, h7⟩
      change m6 = 0 at h6
      change m7 = 0 at h7
      subst h6 h7
      rfl

/-- C13: the frame of the call on the caller's packet. Whatever the call returns
(a buffer or an error), afterwards `Steps` and `Metadata[0..5]` are unchanged
and `Metadata[6] = Metadata[7] = 0`: the checksum goes to the returned buffer
only, never into the packet. -/
theorem frame_of_call (P : Packet) :
    (EncodePacketWithChecksum P).1.Steps = P.Steps ∧
      (EncodePacketWithChecksum P).1.Metadata.toList = P.Metadata.toList.take 6 ++ [0, 0] ∧
      (EncodePacketWithChecksum P).1.Metadata.get 6 = 0 ∧
      (EncodePacketWithChecksum P).1.Metadata.get 7 = 0 := by
  rw [EncodePacketWithChecksum_fst]
  refine ⟨rfl, clearChecksum_Metadata P, ?_, ?_⟩
  · obtain ⟨steps, ⟨md, hmd⟩⟩ := P
    match md, hmd with
    | [_, _, _, _, _, _, _, _], _ => rfl
  · obtain ⟨steps, ⟨md, hmd⟩⟩ := P
    match md, hmd with
    | [_, _, _, _, _, _, _, _], _ => rfl

/-- C14: the fixed-point scenario. The packet with the step
`{0x10, 0x00, 0x00, 0x64, 0x08, 0, 0, 0}` in slot 0, `StepB{0}` in slots 1..6
and `Metadata = [0, 0, 0, 0xFF, 0xFF, 0xFF, 0, 0]` encodes to
`10 00 00 64 08 00 00 00`, 48 zero bytes, `00 00 00 FF FF FF` and the checksum
bytes `03 79`, the additive checksum of the 62 bytes before them. -/
theorem fixed_point_scenario :
    mainStep = ⟨0x10, 0x00, 0x00, 0x64, 0x08, 0, 0, 0⟩ ∧
      (EncodePacketWithChecksum (mainPacket mainStep)).2 =
        .ok ([0x10, 0x00, 0x00, 0x64, 0x08, 0x00, 0x00, 0x00] ++ List.replicate 48 0 ++
          [0x00, 0x00, 0x00, 0xFF, 0xFF, 0xFF] ++ [0x03, 0x79]) ∧
      ComputeChecksum ([0x10, 0x00, 0x00, 0x64, 0x08, 0x00, 0x00, 0x00] ++ List.replicate 48 0 ++
          [0x00, 0x00, 0x00, 0xFF, 0xFF, 0xFF]) = 0x03 * 256 + 0x79 := by
  refine ⟨rfl, ?_, by decide⟩
  rfl

/-- C15: the encoder reproduces the reference strings of the source header.
With the `Metadata` and the empty slots of `main`, the record `KeepAlive` in
slot 0 encodes to `8f`, 58 zero bytes, `ff ff ff 03 8c`, whose hexadecimal text
is the string `KeepAlive` of line 18; the step `{0x10, 0, 0x64, 0, ...}`
encodes to `10 00 64`, 56 zero bytes, `ff ff ff 03 71`, whose text is the
string `Red` of line 19. -/
theorem reference_strings :
    ((EncodePacketWithChecksum (mainPacket KeepAlive)).2 =
        .ok ([0x8f] ++ List.replicate 58 0 ++ [0xff, 0xff, 0xff, 0x03, 0x8c]) ∧
      EncodeToString ([0x8f] ++ List.replicate 58 0 ++ [0xff, 0xff, 0xff, 0x03, 0x8c]) =
        keepAliveHex) ∧
    ((EncodePacketWithChecksum (mainPacket redStep)).2 =
        .ok ([0x10, 0x00, 0x64] ++ List.replicate 56 0 ++ [0xff, 0xff, 0xff, 0x03, 0x71]) ∧
      EncodeToString ([0x10, 0x00, 0x64] ++ List.replicate 56 0 ++
        [0xff, 0xff, 0xff, 0x03, 0x71]) = redHex) := by
  refine ⟨⟨?_, ?_⟩, ⟨?_, ?_⟩⟩ <;> rfl

/-- C17: `Clamp` clamps to `[low, high]`. For `low <= high` the result lies in
`[low, high]`; it is `f` when `f` lies there, `low` when `f < low` and `high`
when `f > high`. In particular `Clamp(x, 0, 100)` lies in `[0, 100]`, so that
the conversion to `byte` in `main` keeps its value. -/
theorem Clamp_spec (f low high : Int) (h : low ≤ high) :
    low ≤ Clamp f low high ∧ Clamp f low high ≤ high ∧
      (low ≤ f ∧ f ≤ high → Clamp f low high = f) ∧
      (f < low → Clamp f low high = low) ∧
      (f > high → Clamp f low high = high) ∧
      0 ≤ Clamp f 0 100 ∧ Clamp f 0 100 ≤ 100 ∧
      byteOfInt (Clamp f 0 100) = Clamp f 0 100 := by
  unfold Clamp byteOfInt
  refine ⟨?_, ?_, ?_, ?_, ?_, ?_, ?_, ?_⟩ <;> split_ifs <;> omega

/-- Witness of C17: the flag value 250 is clamped to 100. -/
theorem Clamp_spec_witness :
    (0 : Int) ≤ Clamp 250 0 100 ∧ Clamp 250 0 100 ≤ 100 ∧
      ((0 : Int) ≤ 250 ∧ (250 : Int) ≤ 100 → Clamp 250 0 100 = 250) ∧
      ((250 : Int) < 0 → Clamp 250 0 100 = 0) ∧
      ((250 : Int) > 100 → Clamp 250 0 100 = 100) ∧
      0 ≤ Clamp 250 0 100 ∧ Clamp 250 0 100 ≤ 100 ∧
      byteOfInt (Clamp 250 0 100) = Clamp 250 0 100 :=
  Clamp_spec 250 0 100 (by decide)

/-- Writing one place of a list leaves the other places as they were. -/
theorem getD_set_of_ne (l : List Nat) (i j x : Nat) (h : i ≠ j) :
    (l.set i x).getD j 0 = l.getD j 0 := by
  rw [List.getD_eq_getElem?_getD, List.getD_eq_getElem?_getD, List.getElem?_set_ne h]

/-- The checksum does not see the order of the bytes. -/
theorem ComputeChecksum_perm {D1 D2 : List Nat} (h : D1.Perm D2) :
    ComputeChecksum D1 = ComputeChecksum D2 := by
  rw [ComputeChecksum_eq_sum, ComputeChecksum_eq_sum, h.sum_eq]

/-- C16: the known weakness of the additive checksum. Adding `d` to the byte at
index `i` and subtracting `d` from the byte at another index `j` (both staying
bytes) leaves `ComputeChecksum` unchanged; hence two distinct 62-byte
sequences have the same checksum; and `ComputeChecksum` is invariant under any
permutation of the bytes. -/
theorem compensating_corruption (D : List Nat) (i j d : Nat) (hi : i < D.length)
    (hj : j < D.length) (hij : i ≠ j) (h1 : D.getD i 0 + d ≤ 255) (h2 : d ≤ D.getD j 0) :
    ComputeChecksum ((D.set i (D.getD i 0 + d)).set j (D.getD j 0 - d)) = ComputeChecksum D ∧
      ((∀ b ∈ D, b < 256) →
        ∀ b ∈ (D.set i (D.getD i 0 + d)).set j (D.getD j 0 - d), b < 256) ∧
      (∃ D1 D2 : List Nat, D1.length = 62 ∧ D2.length = 62 ∧ (∀ b ∈ D1, b < 256) ∧
        (∀ b ∈ D2, b < 256) ∧ D1 ≠ D2 ∧ ComputeChecksum D1 = ComputeChecksum D2) ∧
      ∀ D1 D2 : List Nat, D1.Perm D2 → ComputeChecksum D1 = ComputeChecksum D2 := by
  have hyj : D.getD j 0 < 256 ∨ ¬ (∀ b ∈ D, b < 256) := by
    by_cases hall : ∀ b ∈ D, b < 256
    · left
      rw [List.getD_eq_getElem _ _ hj]
      exact hall _ (List.getElem_mem _)
    · exact Or.inr hall
  refine ⟨?_, ?_, ⟨1 :: 0 :: List.replicate 60 0, 0 :: 1 :: List.replicate 60 0,
    by decide, by decide, by decide, by decide, by decide, by decide⟩,
    fun _ _ h => ComputeChecksum_perm h⟩
  swap
  · intro hall b hb
    rcases List.mem_or_eq_of_mem_set hb with hb1 | rfl
    · rcases List.mem_or_eq_of_mem_set hb1 with hb2 | rfl
      · exact hall b hb2
      · omega
    · rcases hyj with hy | hn
      · omega
      · exact absurd hall hn
  have hs1 := sum_set_add D i (D.getD i 0 + d) hi
  have hs2 := sum_set_add (D.set i (D.getD i 0 + d)) j (D.getD j 0 - d)
    (by rw [List.length_set]; exact hj)
  rw [getD_set_of_ne D i j _ hij] at hs2
  rw [ComputeChecksum_eq_sum, ComputeChecksum_eq_sum]
  have hsum : ((D.set i (D.getD i 0 + d)).set j (D.getD j 0 - d)).sum = D.sum := by omega
  rw [hsum]

/-- Witness of C16: in the bytes `5, 7, 0` the first byte is raised and the
second lowered by 3. -/
theorem compensating_corruption_witness :
    ComputeChecksum (([5, 7, 0].set 0 (([5, 7, 0] : List Nat).getD 0 0 + 3)).set 1
        (([5, 7, 0] : List Nat).getD 1 0 - 3)) = ComputeChecksum [5, 7, 0] ∧
      ((∀ b ∈ ([5, 7, 0] : List Nat), b < 256) →
        ∀ b ∈ ([5, 7, 0].set 0 (([5, 7, 0] : List Nat).getD 0 0 + 3)).set 1
          (([5, 7, 0] : List Nat).getD 1 0 - 3), b < 256) ∧
      (∃ D1 D2 : List Nat, D1.length = 62 ∧ D2.length = 62 ∧ (∀ b ∈ D1, b < 256) ∧
        (∀ b ∈ D2, b < 256) ∧ D1 ≠ D2 ∧ ComputeChecksum D1 = ComputeChecksum D2) ∧
      ∀ D1 D2 : List Nat, D1.Perm D2 → ComputeChecksum D1 = ComputeChecksum D2 :=
  compensating_corruption [5, 7, 0] 0 1 3 (by decide) (by decide) (by decide) (by decide)
    (by decide)

/-- C19, on the code: a value of kind `int8` makes `encodeValue` panic in
`v.Uint()` (line 166); no byte is appended. -/
theorem int8_field_panics (x : Int) (buf : List Nat) :
    encodeValue (.int8 x) buf =
        .error (.panic "reflect: call of reflect.Value.Uint on int8 Value") ∧
      EncodeStructToBytes (.struct [.int8 (-1)]) =
        .error (.panic "reflect: call of reflect.Value.Uint on int8 Value") := by
  constructor <;> rfl

/-- A value of a kind without a branch falls to the `default` branch. -/
theorem encodeValueAt_unsupported (d : Bool) (v : Value) (hk : v.Kind ∉ handledKinds)
    (buf : List Nat) : encodeValueAt d v buf = unsupported v := by
  cases d <;> cases v <;>
    first
    | rfl
    | (exfalso; simp [handledKinds, Value.Kind] at hk)

/-- The loop over a list of values, one part after the other. -/
theorem encodeEach_append (xs ys : List Value) (buf : List Nat) :
    encodeEach (xs ++ ys) buf =
      match encodeEach xs buf with
      | .error err => .error err
      | .ok buf1 => encodeEach ys buf1 := by
  induction xs generalizing buf with
  | nil => simp [encodeEach]
  | cons x rest ih =>
    simp only [List.cons_append, encodeEach]
    cases encodeValueAt false x buf with
    | error e => rfl
    | ok b => exact ih b

/-- A struct with a field of a kind without a branch never encodes. -/
theorem EncodeStructToBytes_struct_unsupported (v : Value) (hk : v.Kind ∉ handledKinds)
    (pre post : List Value) :
    (∀ out, EncodeStructToBytes (.struct (pre ++ v :: post)) ≠ .ok out) ∧
      ∀ b, encodeEach pre [] = .ok b →
        EncodeStructToBytes (.struct (pre ++ v :: post)) = unsupported v := by
  have hform : EncodeStructToBytes (.struct (pre ++ v :: post)) =
      match encodeEach pre [] with
      | .error err => .error err
      | .ok _ => unsupported v := by
    simp only [EncodeStructToBytes, encodeValue, encodeValueAt, encodeEach_append, encodeEach,
      encodeValueAt_unsupported false v hk, unsupported]
    cases encodeEach pre [] <;> rfl
  rw [hform]
  constructor
  · intro out
    cases encodeEach pre [] <;> simp [unsupported]
  · intro b hb
    rw [hb]

/-- The loop over the slots stops at the first slot whose value does not encode,
with the failure of that value. -/
theorem encodeEach_first_error (ws : List StepWrapper) (buf : List Nat) (i : Nat)
    (hi : i < ws.length) (e : Failure)
    (hpre : ∀ j (hj : j < i), ∃ bs1, SlotBytes (ws.get ⟨j, Nat.lt_trans hj hi⟩) bs1)
    (h : EncodeStructToBytes (ws.get ⟨i, hi⟩).Step = .error e) :
    encodeEach (ws.map StepWrapper.ValueOf) buf = .error e := by
  induction ws generalizing buf i with
  | nil => simp at hi
  | cons w rest ih =>
    cases i with
    | zero =>
      simp only [List.get_eq_getElem, List.getElem_cons_zero] at h
      simp only [List.map_cons, encodeEach, StepWrapper.ValueOf, encodeValueAt_stepWrapper, h]
    | succ j =>
      obtain ⟨bs0, h0⟩ := hpre 0 (Nat.succ_pos j)
      simp only [List.get_eq_getElem, List.getElem_cons_zero] at h0
      simp only [List.map_cons, encodeEach, encodeValueAt_slot h0]
      refine ih _ j (by simpa using hi) ?_ (by simpa using h)
      intro m hm
      obtain ⟨bs1, h1⟩ := hpre (m + 1) (Nat.succ_lt_succ hm)
      exact ⟨bs1, by simpa using h1⟩

/-- A packet with a slot whose value does not encode is rejected, and with the
failure of that value when every earlier slot encodes to eight bytes. -/
theorem EncodePacketWithChecksum_slot_error (P : Packet) (i : Fin 7) (e : Failure)
    (h : EncodeStructToBytes (P.Steps.get i).Step = .error e) :
    (∀ B, (EncodePacketWithChecksum P).2 ≠ .ok B) ∧
      ((∀ j : Fin 7, j < i → ∃ bs1, SlotBytes (P.Steps.get j) bs1) →
        (EncodePacketWithChecksum P).2 = .error e) := by
  have hi : i.val < P.Steps.toList.length := by
    rw [Mathlib.Vector.toList_length]; exact i.isLt
  have hget : P.Steps.get i = P.Steps.toList.get ⟨i.val, hi⟩ := Mathlib.Vector.get_eq_get _ _
  constructor
  · intro B hB
    obtain ⟨bss, hf, _⟩ := EncodePacketWithChecksum_ok_form hB
    obtain ⟨bs1, h1, _⟩ := slot_of_slots hf i.val hi
    rw [← hget, h] at h1
    exact absurd h1 (by simp)
  · intro hpre
    rw [EncodePacketWithChecksum_snd,
      encodeEach_first_error P.Steps.toList [] i.val hi e ?_ (hget ▸ h)]
    intro j hj
    have hj7 : j < 7 := Nat.lt_trans hj i.isLt
    obtain ⟨bs1, h1⟩ := hpre ⟨j, hj7⟩ hj
    exact ⟨bs1, by rw [Mathlib.Vector.get_eq_get] at h1; exact h1⟩

/-- C18, as the claim states it, fails: in the packet `twoKinds` slot 1 holds a
`bool`, a kind without a branch, yet the error the call returns names the
`string` of slot 0, not `bool`. -/
theorem unsupported_message_counterexample :
    (Value.other .Bool).Kind ∉ handledKinds ∧
      (twoKinds.Steps.get 1).Step = .other .Bool ∧
      (EncodePacketWithChecksum twoKinds).2 =
        .error (.error "unsupported field type: string") ∧
      (EncodePacketWithChecksum twoKinds).2 ≠ unsupported (.other .Bool) := by
  have h : (EncodePacketWithChecksum twoKinds).2 =
      .error (.error "unsupported field type: string") := by rfl
  refine ⟨by decide, rfl, h, ?_⟩
  rw [h, unsupported]
  intro hc
  injection hc with hc
  injection hc with hc
  revert hc
  decide

/-- C18, amended: an unsupported field type is a runtime error, not silent
output. For a value `v` whose kind has no branch in `encodeValue`,
`EncodeStructToBytes` returns the error "unsupported field type: <kind>". A
packet that holds `v` in a slot, or in a slot a struct with `v` among its
fields, is always rejected; `EncodePacketWithChecksum` returns that very error
when every earlier slot encodes to eight bytes (and, for the struct, the fields
before `v` encode). -/
theorem unsupported_kind_rejected (v : Value) (hk : v.Kind ∉ handledKinds) :
    EncodeStructToBytes v = unsupported v ∧
    (∀ (P : Packet) (i : Fin 7), (P.Steps.get i).Step = v →
      (∀ B, (EncodePacketWithChecksum P).2 ≠ .ok B) ∧
      ((∀ j : Fin 7, j < i → ∃ bs1, SlotBytes (P.Steps.get j) bs1) →
        (EncodePacketWithChecksum P).2 = unsupported v)) ∧
    (∀ (P : Packet) (i : Fin 7) (pre post : List Value),
      (P.Steps.get i).Step = .struct (pre ++ v :: post) →
      (∀ B, (EncodePacketWithChecksum P).2 ≠ .ok B) ∧
      ((∃ b, encodeEach pre [] = .ok b) →
        (∀ j : Fin 7, j < i → ∃ bs1, SlotBytes (P.Steps.get j) bs1) →
        (EncodePacketWithChecksum P).2 = unsupported v)) := by
  have hv : EncodeStructToBytes v = unsupported v := by
    simp only [EncodeStructToBytes, encodeValue, encodeValueAt_unsupported false v hk]
    rfl
  refine ⟨hv, ?_, ?_⟩
  · intro P i hstep
    exact EncodePacketWithChecksum_slot_error P i _ (by rw [hstep]; exact hv)
  · intro P i pre post hstep
    obtain ⟨hne, hpre⟩ := EncodeStructToBytes_struct_unsupported v hk pre post
    constructor
    · intro B hB
      obtain ⟨bss, hf, _⟩ := EncodePacketWithChecksum_ok_form hB
      have hi : i.val < P.Steps.toList.length := by
        rw [Mathlib.Vector.toList_length]; exact i.isLt
      have hget : P.Steps.get i = P.Steps.toList.get ⟨i.val, hi⟩ :=
        Mathlib.Vector.get_eq_get _ _
      obtain ⟨bs1, h1, _⟩ := slot_of_slots hf i.val hi
      rw [← hget, hstep] at h1
      exact hne _ h1
    · rintro ⟨b, hb⟩ hslots
      exact (EncodePacketWithChecksum_slot_error P i _
        (by rw [hstep]; exact hpre b hb)).2 hslots

/-- Witness of C18, amended: a `bool` in slot 0. -/
theorem unsupported_kind_rejected_witness :
    (Value.other .Bool).Kind ∉ handledKinds ∧
      EncodeStructToBytes (.other .Bool) = .error (.error "unsupported field type: bool") ∧
      (EncodePacketWithChecksum boolPacket).2 = .error (.error "unsupported field type: bool") :=
  have hk : (Value.other .Bool).Kind ∉ handledKinds := by decide
  ⟨hk, (unsupported_kind_rejected (.other .Bool) hk).1,
    (((unsupported_kind_rejected (.other .Bool) hk).2.1 boolPacket 0 rfl).2
      (fun j hj => absurd hj (Nat.not_lt_zero _)))⟩

/-- The encoding of a value is what `encodeValue` writes to an empty buffer. -/
theorem EncodeStructToBytes_eq (v : Value) :
    EncodeStructToBytes v = encodeValueAt false v [] := by
  unfold EncodeStructToBytes encodeValue
  cases encodeValueAt false v [] <;> rfl

/-- The little-endian bytes are bytes. -/
theorem littleEndian_bytes (w x : Nat) : ∀ b ∈ littleEndian w x, b < 256 := by
  intro b hb
  simp only [littleEndian, List.mem_map] at hb
  obtain ⟨i, _, rfl⟩ := hb
  exact Nat.mod_lt _ (by norm_num)

/-- Appending bytes to bytes gives bytes. -/
theorem append_bytes {xs ys : List Nat} (hx : ∀ b ∈ xs, b < 256) (hy : ∀ b ∈ ys, b < 256) :
    ∀ b ∈ xs ++ ys, b < 256 := by
  intro b hb
  rcases List.mem_append.1 hb with h | h
  · exact hx b h
  · exact hy b h

mutual
/-- On a value whose arrays of `uint8` hold bytes, `encodeValue` appends bytes
only. -/
theorem encodeValueAt_bytes (d : Bool) (v : Value) (buf out : List Nat)
    (hv : v.BytesInRange) (hb : ∀ b ∈ buf, b < 256)
    (h : encodeValueAt d v buf = .ok out) : ∀ b ∈ out, b < 256 := by
  match d, v with
  | false, .ptr elem =>
    simp only [encodeValueAt] at h
    exact encodeValueAt_bytes true elem buf out (by simpa [Value.BytesInRange] using hv) hb h
  | true, .ptr elem =>
    simp [encodeValueAt] at h
  | d, .stepWrapper step =>
    rw [encodeValueAt_stepWrapper] at h
    cases hs : EncodeStructToBytes step with
    | error e => simp [hs] at h
    | ok bs =>
      simp only [hs] at h
      by_cases hl : bs.length = 8
      · simp only [hl, ne_eq, not_true_eq_false, if_false, Except.ok.injEq] at h
        rw [EncodeStructToBytes_eq] at hs
        have hbs := encodeValueAt_bytes false step [] bs
          (by simpa [Value.BytesInRange] using hv) (by simp) hs
        rw [← h]
        exact append_bytes hb hbs
      · simp [hl] at h
  | d, .struct fields =>
    have h2 : encodeEach fields buf = .ok out := by
      cases d <;> simpa [encodeValueAt] using h
    exact encodeEach_bytes fields buf out (by simpa [Value.BytesInRange] using hv) hb h2
  | d, .array elems =>
    have h2 : encodeEach elems buf = .ok out := by
      cases d <;> simpa [encodeValueAt] using h
    exact encodeEach_bytes elems buf out (by simpa [Value.BytesInRange] using hv) hb h2
  | d, .slice elems =>
    have h2 : encodeEach elems buf = .ok out := by
      cases d <;> simpa [encodeValueAt] using h
    exact encodeEach_bytes elems buf out (by simpa [Value.BytesInRange] using hv) hb h2
  | d, .byteArray bytes =>
    have h2 : buf ++ bytes = out := by
      cases d <;> simpa [encodeValueAt] using h
    rw [← h2]
    exact append_bytes hb (by simpa [Value.BytesInRange] using hv)
  | d, .uint8 x =>
    have h2 : buf ++ [x % 2 ^ 64 % 256] = out := by
      cases d <;> simpa [encodeValueAt, Value.Uint] using h
    rw [← h2]
    exact append_bytes hb (by simp; omega)
  | d, .int8 x =>
    cases d <;> simp [encodeValueAt, Value.Uint] at h
  | d, .uint16 x =>
    have h2 : buf ++ littleEndian 2 (x % 2 ^ 64 % 2 ^ 16) = out := by
      cases d <;> simpa [encodeValueAt, Value.Uint] using h
    rw [← h2]
    exact append_bytes hb (littleEndian_bytes _ _)
  | d, .uint32 x =>
    have h2 : buf ++ littleEndian 4 (x % 2 ^ 64 % 2 ^ 32) = out := by
      cases d <;> simpa [encodeValueAt, Value.Uint] using h
    rw [← h2]
    exact append_bytes hb (littleEndian_bytes _ _)
  | d, .uint64 x =>
    have h2 : buf ++ littleEndian 8 (x % 2 ^ 64 % 2 ^ 64) = out := by
      cases d <;> simpa [encodeValueAt, Value.Uint] using h
    rw [← h2]
    exact append_bytes hb (littleEndian_bytes _ _)
  | d, .invalid =>
    cases d <;> simp [encodeValueAt] at h
  | d, .other k =>
    cases d <;> simp [encodeValueAt] at h
/-- On values whose arrays of `uint8` hold bytes, the loop appends bytes only. -/
theorem encodeEach_bytes (vs : List Value) (buf out : List Nat)
    (hv : allBytesInRange vs) (hb : ∀ b ∈ buf, b < 256)
    (h : encodeEach vs buf = .ok out) : ∀ b ∈ out, b < 256 := by
  match vs with
  | [] =>
    simp only [encodeEach, Except.ok.injEq] at h
    rw [← h]
    exact hb
  | v :: rest =>
    simp only [encodeEach] at h
    simp only [allBytesInRange] at hv
    cases h1 : encodeValueAt false v buf with
    | error e => simp [h1] at h
    | ok buf1 =>
      simp only [h1] at h
      exact encodeEach_bytes rest buf1 out hv.2
        (encodeValueAt_bytes false v buf buf1 hv.1 hb h1) h
end

/-- A list of bytes sums to at most 255 per byte. -/
theorem sum_le_of_bytes (l : List Nat) (h : ∀ b ∈ l, b < 256) : l.sum ≤ 255 * l.length := by
  induction l with
  | nil => simp
  | cons a t ih =>
    have ha : a < 256 := h a (List.mem_cons_self _ _)
    have ht := ih (fun b hb => h b (List.mem_cons_of_mem _ hb))
    simp only [List.sum_cons, List.length_cons]
    omega

/-- The encodings of slots whose values are Go values consist of bytes. -/
theorem slots_bytes {ws : List StepWrapper} {bss : List (List Nat)}
    (h : List.Forall₂ SlotBytes ws bss) (hv : ∀ w ∈ ws, w.Step.BytesInRange) :
    ∀ b ∈ bss.flatten, b < 256 := by
  induction h with
  | nil => simp
  | @cons w bs ws1 bss1 hw _ ih =>
    rw [List.flatten_cons]
    have hs := hw.1
    rw [EncodeStructToBytes_eq] at hs
    exact append_bytes
      (encodeValueAt_bytes false w.Step [] bs (hv w (List.mem_cons_self _ _)) (by simp) hs)
      (ih (fun x hx => hv x (List.mem_cons_of_mem _ hx)))

/-- The packet of `main` is a Go value when its step is. -/
theorem mainPacket_InRange (step : JmpStep) : (mainPacket step).InRange := by
  constructor
  · simp only [mainPacket, Mathlib.Vector.toList]
    decide
  · intro w hw
    simp only [mainPacket, Mathlib.Vector.toList, List.mem_cons, List.mem_singleton,
      List.not_mem_nil, or_false] at hw
    rcases hw with rfl | rfl | rfl | rfl | rfl | rfl | rfl <;>
      simp [JmpStep.ValueOf, StepB.ValueOf, Value.BytesInRange, allBytesInRange]

/-- C20: the 16-bit checksum never wraps for a packet. For every buffer `B` the
call returns, `B[62] * 256 + B[63]` is the exact sum of the bytes `B[0..61]`,
which is at most `62 * 255 = 15810`, so that the high checksum byte `B[62]` is
at most `0x3D`. -/
theorem checksum_never_wraps (P : Packet) (B : List Nat) (hP : P.InRange)
    (h : (EncodePacketWithChecksum P).2 = .ok B) :
    B.getD 62 0 * 256 + B.getD 63 0 = (B.take 62).sum ∧
      (B.take 62).sum ≤ 62 * 255 ∧ 62 * 255 = 15810 ∧ B.getD 62 0 ≤ 0x3D := by
  obtain ⟨bss, hf, hB⟩ := EncodePacketWithChecksum_ok_form h
  have hlen := length_body hf
  obtain ⟨_, h2, h3, h4⟩ := body_two _
    ((ComputeChecksum (bss.flatten ++ P.Metadata.toList.take 6) >>> 8) % 256)
    ((ComputeChecksum (bss.flatten ++ P.Metadata.toList.take 6) &&& 0xFF) % 256) hlen
  have hbytes : ∀ b ∈ bss.flatten ++ P.Metadata.toList.take 6, b < 256 :=
    append_bytes (slots_bytes hf hP.2) (fun b hb => hP.1 b (List.mem_of_mem_take hb))
  have hsum := sum_le_of_bytes _ hbytes
  rw [hlen] at hsum
  have hcs : ComputeChecksum (bss.flatten ++ P.Metadata.toList.take 6) =
      (bss.flatten ++ P.Metadata.toList.take 6).sum := by
    rw [ComputeChecksum_eq_sum]
    exact Nat.mod_eq_of_lt (by omega)
  have hpair := checksum_bytes (ComputeChecksum (bss.flatten ++ P.Metadata.toList.take 6))
    (by rw [hcs]; omega)
  rw [hB, h2, h3, h4]
  refine ⟨by rw [hpair, hcs], by omega, by norm_num, ?_⟩
  rw [hcs, Nat.shiftRight_eq_div_pow]
  omega

/-- Witness of C20: the packet of `main`, whose checksum is `0x0379 = 889`. -/
theorem checksum_never_wraps_witness :
    (mainPacket mainStep).InRange ∧
      (EncodePacketWithChecksum (mainPacket mainStep)).2 = .ok mainBytes ∧
      mainBytes.getD 62 0 * 256 + mainBytes.getD 63 0 = (mainBytes.take 62).sum ∧
      (mainBytes.take 62).sum ≤ 62 * 255 ∧ 62 * 255 = 15810 ∧ mainBytes.getD 62 0 ≤ 0x3D :=
  have h : (EncodePacketWithChecksum (mainPacket mainStep)).2 = .ok mainBytes := by rfl
  ⟨mainPacket_InRange mainStep, h,
    checksum_never_wraps (mainPacket mainStep) mainBytes (mainPacket_InRange mainStep) h⟩

end Busylight
